import Mathlib

/-!
Verification development for the ROS2 mcap schema builder
(`CentralSchemaResolver` in `src/lib.rs`).

The Rust code is shallowly embedded here:
* strings are Lean `String`s (lists of characters); Rust byte indices only
  ever land on ASCII boundary characters (`[`, `]`, `<`, `=`, `/`, `#`),
  so character positions coincide with the source's byte positions;
* Rust's Unicode whitespace trimming is modelled with `Char.isWhitespace`
  (identical on the ASCII schema texts in scope);
* the filesystem-backed index `BTreeMap<String, PathBuf>` plus
  `fs::read_to_string` is modelled as an association list from
  fully-qualified type names to `Option String` (`none` models a source
  location whose read fails with an I/O error);
* the recursive `flatten_inner` is given an explicit fuel parameter so
  that every definition stays a computable structural recursion; `flatten`
  supplies a fuel (`fuelFor`) that is proven sufficient, so the fuel-out
  branch is unreachable.
-/

set_option maxRecDepth 1000000

namespace RosSchema

/-- Whitespace trimming of both ends of a character list (Rust `str::trim`). -/
def trimChars (l : List Char) : List Char :=
  ((l.dropWhile Char.isWhitespace).reverse.dropWhile Char.isWhitespace).reverse

/-- `String`-level trimming, as applied by `resolve` and to nested bodies. -/
def trimS (s : String) : String := String.mk (trimChars s.data)

/-- Split a character list at every character satisfying `p`; pieces may be
empty (Rust `str::split`). The result list is always non-empty. -/
def splitPred (p : Char → Bool) : List Char → List (List Char)
  | [] => [[]]
  | c :: cs =>
    match splitPred p cs with
    | [] => [[]]
    | piece :: pieces =>
      if p c then [] :: piece :: pieces else (c :: piece) :: pieces

/-- Rust `str::split(c)`. -/
def splitOnChar (c : Char) (l : List Char) : List (List Char) :=
  splitPred (fun x => x == c) l

/-- Rust `str::split_whitespace`: pieces between whitespace runs, no empties. -/
def splitWhitespaceL (l : List Char) : List (List Char) :=
  (splitPred Char.isWhitespace l).filter (fun w => !w.isEmpty)

/-- Rust `str::lines`, as used on the (already trimmed) definition text.
`lines()` drops a final empty line and strips `\r`; both differences from a
plain split on `\n` are erased by the per-line trim and blank-line skip in
`flatten_inner`, so a plain split is the faithful model here. -/
def linesOf (s : String) : List String :=
  (splitOnChar '\n' s.data).map String.mk

/-- `current_type.split('/').next().unwrap_or("")` (src/lib.rs:197). -/
def packageOf (typename : String) : String :=
  String.mk ((splitOnChar '/' typename.data).headD [])

/-- Rust `str::contains(pattern)`: substring test. -/
def containsSub (pat : List Char) : List Char → Bool
  | [] => pat.isEmpty
  | c :: cs => pat.isPrefixOf (c :: cs) || containsSub pat cs

/-- Worker for `String::replace`: leftmost non-overlapping replacement.
The fuel is the length of the scanned list, which bounds the number of
steps since every step consumes at least one character. -/
def replaceAux (pat repl : List Char) : Nat → List Char → List Char
  | _, [] => []
  | 0, c :: cs => c :: cs
  | fuel + 1, c :: cs =>
    if pat.isPrefixOf (c :: cs) then
      repl ++ replaceAux pat repl fuel ((c :: cs).drop pat.length)
    else
      c :: replaceAux pat repl fuel cs

/-- Rust `str::replace(pat, repl)`. -/
def replaceL (pat repl l : List Char) : List Char := replaceAux pat repl l.length l

/-- `nested_type.replace("/msg/", "/")` (src/lib.rs:212): the display name
printed after `MSG: `. -/
def displayName (n : String) : String :=
  String.mk (replaceL "/msg/".data "/".data n.data)

/-- Rust `str::rfind('[')`: position of the last `[`, if any. -/
def rfindBracket : List Char → Option Nat
  | [] => none
  | c :: cs =>
    match rfindBracket cs with
    | some i => some (i + 1)
    | none => if c == '[' then some 0 else none

/-- The bracket-interior test of `strip_array_suffix` (src/lib.rs:273-277):
after trimming, the interior must be empty, all ASCII digits, or `<=`
followed (after another trim) by all ASCII digits. -/
def validArrayInner (raw : List Char) : Bool :=
  let inner := trimChars raw
  inner.isEmpty || inner.all Char.isDigit ||
    (match inner with
     | '<' :: '=' :: rest => (trimChars rest).all Char.isDigit
     | _ => false)

/-- The stripping loop of `strip_array_suffix` (src/lib.rs:264-286).
Each executed iteration shortens the list, so `s.length` bounds the
iteration count and the fuel-zero branch is only reached on `[]`. -/
def stripGo : Nat → List Char → List Char
  | 0, s => s
  | fuel + 1, s =>
    match rfindBracket s with
    | none => s
    | some lb =>
      if s.getLast? = some ']' ∧ lb ≠ 0 then
        if validArrayInner ((s.drop (lb + 1)).dropLast) then
          stripGo fuel (s.take lb)
        else s
      else s

def stripArraySuffixL (s : List Char) : List Char := stripGo s.length s

/-- `strip_array_suffix` (src/lib.rs:264). -/
def strip_array_suffix (s : String) : String := String.mk (stripArraySuffixL s.data)

/-- The fixed builtin primitive names matched at src/lib.rs:146-148. -/
def builtinNames : List String :=
  ["bool", "byte", "char", "int8", "uint8", "int16", "uint16", "int32", "uint32",
   "int64", "uint64", "float32", "float64", "string", "wstring"]

/-- The bounded-string remainder test (src/lib.rs:154-156 and 159-161):
`rest.is_empty() || (rest.starts_with("<=") && rest[2..] all ASCII digits)`. -/
def boundedRestOk (rest : List Char) : Bool :=
  rest.isEmpty ||
    (match rest with
     | '<' :: '=' :: r => r.all Char.isDigit
     | _ => false)

/-- `CentralSchemaResolver::is_builtin_type` (src/lib.rs:141-165).  The Rust
method ignores the resolver state, so the embedding is a plain function. -/
def is_builtin_type (raw : String) : Bool :=
  let base := strip_array_suffix raw
  if builtinNames.contains base then true
  else
    match base.data with
    | 's' :: 't' :: 'r' :: 'i' :: 'n' :: 'g' :: rest => boundedRestOk rest
    | 'w' :: 's' :: 't' :: 'r' :: 'i' :: 'n' :: 'g' :: rest => boundedRestOk rest
    | _ => false

/-- The literal segment `"/msg/"` tested by `base.contains("/msg/")`. -/
def msgMark : String := "/msg/"

/-- `CentralSchemaResolver::resolve_custom_type` (src/lib.rs:167-190). -/
def resolve_custom_type (raw current_package : String) : Option String :=
  if is_builtin_type raw then none
  else
    let base := strip_array_suffix raw
    if base.data.contains '/' then
      if containsSub msgMark.data base.data then some base
      else
        match (splitOnChar '/' base.data).map String.mk with
        | [pkg, ty] => some (pkg ++ "/msg/" ++ ty)
        | _ => none
    else
      some (current_package ++ "/msg/" ++ base)

/-- The schema index: `resolved_map : BTreeMap<String, PathBuf>` together with
the filesystem behind it.  Each entry maps a fully-qualified type name to the
text of its `.msg` file, or to `none` when reading that file fails with an
I/O error.  Lookup takes the first matching entry (`BTreeMap` keys are
unique). -/
abbrev Index := List (String × Option String)

/-- The error kinds of the engine: `anyhow!("Definition not found for: {}")`,
a propagated `std::io::Error`, and the (proven unreachable) fuel exhaustion
of the embedded recursion. -/
inductive SchemaError where
  | notFound (typename : String)
  | ioError
  | fuelOut
deriving DecidableEq

/-- `CentralSchemaResolver::resolve` (src/lib.rs:60-67): index lookup, then
read and trim the backing text. -/
def resolve (idx : Index) (typename : String) : Except SchemaError String :=
  match idx.lookup typename with
  | none => Except.error (SchemaError.notFound typename)
  | some none => Except.error SchemaError.ioError
  | some (some text) => Except.ok (trimS text)

/-- The separator line of the block format (src/lib.rs:216): the source
writes it as a literal line of exactly 80 `=` characters. -/
def sepLine : String := String.mk (List.replicate 80 '=')

/-- `format!("{sep}\nMSG: {}\n{}", typename, nested_def.trim())`. -/
def mkBlock (display body : String) : String :=
  sepLine ++ "\nMSG: " ++ display ++ "\n" ++ body

/-- The block pushed for a nested type `(name, definition)`: separator,
`MSG:` header with the `/msg/` segment collapsed, trimmed definition. -/
def renderBlock (b : String × String) : String :=
  mkBlock (displayName b.1) (trimS b.2)

/-- The per-line filtering of `flatten_inner` (src/lib.rs:199-208): trim,
skip blank and `#`-comment lines, whitespace-tokenize, skip lines with fewer
than two tokens, return the first token. -/
def fieldTypeToken (line : String) : Option String :=
  let t := trimChars line.data
  if t.isEmpty then none
  else if t.head? = some '#' then none
  else
    let parts := splitWhitespaceL t
    if parts.length < 2 then none
    else some (String.mk (parts.headD []))

/-- `CentralSchemaResolver::flatten_inner` (src/lib.rs:192-226), with the
mutable `visited`/`flat` state threaded explicitly and the `for` loop over
lines turned into recursion on the line list.  The caller inserts the
current type into `visited` (the Rust callee's first statement), so the
nested recursive call receives `nested_type :: visited`.  `fuel` bounds the
call count; `flatten` passes a sufficient amount. -/
def flatten_inner (idx : Index) :
    Nat → String → List String → List String → List String →
    Except SchemaError (List String × List String)
  | 0, _, _, _, _ => Except.error SchemaError.fuelOut
  | fuel + 1, current_package, lines, visited, flat =>
    match lines with
    | [] => Except.ok (visited, flat)
    | line :: rest =>
      match fieldTypeToken line with
      | none => flatten_inner idx fuel current_package rest visited flat
      | some typename =>
        match resolve_custom_type typename current_package with
        | none => flatten_inner idx fuel current_package rest visited flat
        | some nested_type =>
          if visited.contains nested_type then
            flatten_inner idx fuel current_package rest visited flat
          else
            match resolve idx nested_type with
            | Except.error e => Except.error e
            | Except.ok nested_def =>
              match flatten_inner idx fuel (packageOf nested_type) (linesOf nested_def)
                  (nested_type :: visited)
                  (flat ++ [renderBlock (nested_type, nested_def)]) with
              | Except.error e => Except.error e
              | Except.ok (visited', flat') =>
                flatten_inner idx fuel current_package rest visited' flat'

/-- Fuel cost reserved for one index entry: one call per line of its trimmed
text, one for the end-of-lines call, one for entering the definition. -/
def entryCost (e : String × Option String) : Nat :=
  match e.2 with
  | some t => (linesOf (trimS t)).length + 2
  | none => 0

def totalCost (idx : Index) : Nat := (idx.map entryCost).sum

/-- Fuel passed by `flatten`: enough for the root's lines plus every index
entry, proven sufficient below (`flatten` never returns `fuelOut`). -/
def fuelFor (idx : Index) (rootDef : String) : Nat :=
  (linesOf rootDef).length + 1 + totalCost idx

/-- Rust `Vec::join(sep)`. -/
def joinWith (sep : List Char) : List (List Char) → List Char
  | [] => []
  | [x] => x
  | x :: y :: ys => x ++ sep ++ joinWith sep (y :: ys)

def joinS (sep : String) (l : List String) : String :=
  String.mk (joinWith sep.data (l.map String.data))

/-- `CentralSchemaResolver::flatten` (src/lib.rs:132-139): resolve the root,
emit it bare as the first block, run the traversal with `visited = {root}`,
join all blocks with a blank line. -/
def flatten (idx : Index) (root_type : String) : Except SchemaError String :=
  match resolve idx root_type with
  | Except.error e => Except.error e
  | Except.ok definition =>
    match flatten_inner idx (fuelFor idx definition) (packageOf root_type)
        (linesOf definition) [root_type] [definition] with
    | Except.error e => Except.error e
    | Except.ok (_, flat) => Except.ok (joinS "\n\n" flat)

/-- Fuel still unspent for the unvisited part of the index. -/
def budget (idx : Index) (visited : List String) : Nat :=
  totalCost (idx.filter (fun e => !visited.contains e.1))

/-- The end-to-end scenario index (spec §8): `tf2_msgs/TFMessage` and its
closure, with the bodies the scenario prescribes (the two `Time` fields and
the `Vector3`/`Quaternion` leaves are numeric-only). -/
def tfIndex : Index :=
  [("tf2_msgs/msg/TFMessage", some "geometry_msgs/TransformStamped[] transforms"),
   ("geometry_msgs/msg/TransformStamped",
     some "std_msgs/Header header\nstring child_frame_id\nTransform transform"),
   ("std_msgs/msg/Header", some "builtin_interfaces/Time stamp\nstring frame_id"),
   ("builtin_interfaces/msg/Time", some "int32 sec\nuint32 nanosec"),
   ("geometry_msgs/msg/Transform", some "Vector3 translation\nQuaternion rotation"),
   ("geometry_msgs/msg/Vector3", some "float64 x\nfloat64 y\nfloat64 z"),
   ("geometry_msgs/msg/Quaternion",
     some "float64 x 0\nfloat64 y 0\nfloat64 z 0\nfloat64 w 1")]

/-- The expected flattened text for the end-to-end scenario: the root text,
then the TransformStamped, Header, Time, Transform, Vector3, Quaternion
blocks in depth-first discovery order, each opened by the 80-`=` separator
and its `MSG:` header. -/
def tfExpected : String :=
  "geometry_msgs/TransformStamped[] transforms" ++ "\n\n" ++
  sepLine ++ "\nMSG: geometry_msgs/TransformStamped\n" ++
  "std_msgs/Header header\nstring child_frame_id\nTransform transform" ++ "\n\n" ++
  sepLine ++ "\nMSG: std_msgs/Header\n" ++
  "builtin_interfaces/Time stamp\nstring frame_id" ++ "\n\n" ++
  sepLine ++ "\nMSG: builtin_interfaces/Time\n" ++
  "int32 sec\nuint32 nanosec" ++ "\n\n" ++
  sepLine ++ "\nMSG: geometry_msgs/Transform\n" ++
  "Vector3 translation\nQuaternion rotation" ++ "\n\n" ++
  sepLine ++ "\nMSG: geometry_msgs/Vector3\n" ++
  "float64 x\nfloat64 y\nfloat64 z" ++ "\n\n" ++
  sepLine ++ "\nMSG: geometry_msgs/Quaternion\n" ++
  "float64 x 0\nfloat64 y 0\nfloat64 z 0\nfloat64 w 1"

/-- A cyclic index: `A` references `B` and `B` references `A` (spec §8,
cycle safety). -/
def cycIdx : Index := [("p/msg/A", some "B b"), ("p/msg/B", some "A a")]

/-- A root with two fields of the same custom type `std_msgs/Header`
(spec §8, shared-dependency dedup). -/
def dupIdx : Index :=
  [("demo/msg/Root", some "std_msgs/Header a\nstd_msgs/Header b"),
   ("std_msgs/msg/Header", some "uint32 seq")]

/-! ### Generic list helpers -/

theorem contains_true_iff (l : List String) (a : String) :
    l.contains a = true ↔ a ∈ l := by
  simp [List.contains]

theorem contains_false_iff (l : List String) (a : String) :
    l.contains a = false ↔ a ∉ l := by
  simp [List.contains]

theorem isPrefixOf_append_self (pat l : List Char) :
    pat.isPrefixOf (pat ++ l) = true := by
  induction pat with
  | nil => cases l <;> rfl
  | cons p ps ih => simp [List.isPrefixOf, ih]

theorem isPrefixOf_nil_left (l : List Char) : ([] : List Char).isPrefixOf l = true := by
  cases l <;> rfl

theorem containsSub_nil_pat (l : List Char) : containsSub [] l = true := by
  cases l with
  | nil => rfl
  | cons c cs => simp only [containsSub, isPrefixOf_nil_left, Bool.true_or]

theorem containsSub_mid (pat a b : List Char) :
    containsSub pat (a ++ pat ++ b) = true := by
  induction a with
  | nil =>
    cases hp : pat with
    | nil => exact containsSub_nil_pat b
    | cons c cs =>
      show containsSub (c :: cs) (c :: (cs ++ b)) = true
      simp only [containsSub, Bool.or_eq_true]
      exact Or.inl (isPrefixOf_append_self (c :: cs) b)
  | cons x xs ih =>
    show containsSub pat (x :: (xs ++ pat ++ b)) = true
    simp only [containsSub, Bool.or_eq_true]
    exact Or.inr ih

theorem lookup_mem : ∀ {idx : Index} {n : String} {v : Option String},
    idx.lookup n = some v → (n, v) ∈ idx := by
  intro idx
  induction idx with
  | nil => intro n v h; simp [List.lookup] at h
  | cons e es ih =>
    obtain ⟨k, w⟩ := e
    intro n v h
    rw [List.lookup] at h
    cases hbeq : n == k with
    | true =>
      rw [hbeq] at h
      have hn : n = k := by simpa using hbeq
      have hv : w = v := by simpa using h
      subst hn; subst hv
      exact List.mem_cons_self _ _
    | false =>
      rw [hbeq] at h
      exact List.mem_cons_of_mem _ (ih h)

/-! ### `strip_array_suffix` helpers -/

theorem stripGo_append : ∀ (fuel : Nat) (l : List Char),
    ∃ t, stripGo fuel l ++ t = l
  | 0, l => ⟨[], List.append_nil l⟩
  | fuel + 1, l => by
    cases hf : rfindBracket l with
    | none => exact ⟨[], by rw [stripGo, hf, List.append_nil]⟩
    | some lb =>
      simp only [stripGo, hf]
      by_cases hcond : l.getLast? = some ']' ∧ lb ≠ 0
      · rw [if_pos hcond]
        by_cases hv : validArrayInner ((l.drop (lb + 1)).dropLast) = true
        · rw [if_pos hv]
          obtain ⟨t, ht⟩ := stripGo_append fuel (l.take lb)
          exact ⟨t ++ l.drop lb, by rw [← List.append_assoc, ht, List.take_append_drop]⟩
        · rw [if_neg hv]
          exact ⟨[], List.append_nil l⟩
      · rw [if_neg hcond]
        exact ⟨[], List.append_nil l⟩

theorem stripGo_ne_nil : ∀ (fuel : Nat) (l : List Char),
    l ≠ [] → stripGo fuel l ≠ []
  | 0, l, h => h
  | fuel + 1, l, h => by
    cases hf : rfindBracket l with
    | none => rw [stripGo, hf]; exact h
    | some lb =>
      simp only [stripGo, hf]
      by_cases hcond : l.getLast? = some ']' ∧ lb ≠ 0
      · rw [if_pos hcond]
        by_cases hv : validArrayInner ((l.drop (lb + 1)).dropLast) = true
        · rw [if_pos hv]
          refine stripGo_ne_nil fuel (l.take lb) ?_
          obtain ⟨c, cs, rfl⟩ : ∃ c cs, l = c :: cs := by
            cases l with
            | nil => exact absurd rfl h
            | cons c cs => exact ⟨c, cs, rfl⟩
          obtain ⟨m, rfl⟩ : ∃ m, lb = m + 1 := by
            cases lb with
            | zero => exact absurd rfl hcond.2
            | succ m => exact ⟨m, rfl⟩
          simp [List.take]
        · rw [if_neg hv]; exact h
      · rw [if_neg hcond]; exact h

/-! ### `resolve` and `resolve_custom_type` helpers -/

theorem resolve_error_kinds {idx : Index} {n : String} {e : SchemaError}
    (h : resolve idx n = Except.error e) :
    e = SchemaError.notFound n ∨ e = SchemaError.ioError := by
  unfold resolve at h
  cases hl : idx.lookup n with
  | none =>
    rw [hl] at h
    have he : SchemaError.notFound n = e := by simpa using h
    exact Or.inl he.symm
  | some o =>
    cases o with
    | none =>
      rw [hl] at h
      have he : SchemaError.ioError = e := by simpa using h
      exact Or.inr he.symm
    | some t =>
      rw [hl] at h
      simp at h

theorem resolve_ok_lookup {idx : Index} {n d : String}
    (h : resolve idx n = Except.ok d) :
    ∃ t, idx.lookup n = some (some t) ∧ d = trimS t := by
  unfold resolve at h
  cases hl : idx.lookup n with
  | none => rw [hl] at h; simp at h
  | some o =>
    cases o with
    | none => rw [hl] at h; simp at h
    | some t =>
      rw [hl] at h
      have he : trimS t = d := by simpa using h
      exact ⟨t, rfl, he.symm⟩

theorem resolve_no_fuelOut {idx : Index} {n : String} :
    resolve idx n ≠ Except.error SchemaError.fuelOut := by
  intro h
  rcases resolve_error_kinds h with h' | h' <;> simp at h'

theorem resolve_custom_type_msg {raw pkg n : String}
    (h : resolve_custom_type raw pkg = some n) :
    containsSub msgMark.data n.data = true := by
  simp only [resolve_custom_type] at h
  split at h
  · simp at h
  · split at h
    · split at h
      · next hm =>
        rw [Option.some.injEq] at h
        subst h
        exact hm
      · next hm =>
        split at h
        · next pkg2 ty heq =>
          rw [Option.some.injEq] at h
          subst h
          have hd : (pkg2 ++ "/msg/" ++ ty).data
              = pkg2.data ++ msgMark.data ++ ty.data := by
            simp [String.data_append, msgMark]
          rw [hd]
          exact containsSub_mid _ _ _
        · simp at h
    · rw [Option.some.injEq] at h
      subst h
      have hd : (pkg ++ "/msg/" ++ strip_array_suffix raw).data
          = pkg.data ++ msgMark.data ++ (strip_array_suffix raw).data := by
        simp [String.data_append, msgMark]
      rw [hd]
      exact containsSub_mid _ _ _

/-! ### The main invariant of `flatten_inner` -/

/-- A successful `flatten_inner` run appends exactly a list of rendered
blocks, one per newly visited type: the final `flat` extends the initial
one with `renderBlock` images, the final `visited` extends the initial one
with exactly the emitted names, every emitted name resolves and carries the
`/msg/` segment, no name is emitted twice, and no emitted name was already
visited. -/
theorem flatten_inner_ok_shape (idx : Index) :
    ∀ (fuel : Nat) (pkg : String) (lines : List String) (visited flat : List String)
      (v' f' : List String),
      flatten_inner idx fuel pkg lines visited flat = Except.ok (v', f') →
      ∃ blocks : List (String × String),
        f' = flat ++ blocks.map renderBlock ∧
        v' = (blocks.map Prod.fst).reverse ++ visited ∧
        (∀ b ∈ blocks, resolve idx b.1 = Except.ok b.2 ∧
          containsSub msgMark.data b.1.data = true) ∧
        (blocks.map Prod.fst).Nodup ∧
        (∀ n ∈ blocks.map Prod.fst, n ∉ visited) := by
  intro fuel
  induction fuel with
  | zero =>
    intro pkg lines visited flat v' f' h
    simp [flatten_inner] at h
  | succ fuel ih =>
    intro pkg lines visited flat v' f' h
    cases lines with
    | nil =>
      simp only [flatten_inner] at h
      obtain ⟨rfl, rfl⟩ : visited = v' ∧ flat = f' := by simpa using h
      exact ⟨[], by simp⟩
    | cons line rest =>
      simp only [flatten_inner] at h
      split at h
      · exact ih pkg rest visited flat v' f' h
      · split at h
        · exact ih pkg rest visited flat v' f' h
        · next typename nested hct =>
          split at h
          · exact ih pkg rest visited flat v' f' h
          · next hnvis =>
            split at h
            · simp at h
            · next nested_def hres =>
              split at h
              · simp at h
              · next visited1 flat1 hinner =>
                obtain ⟨b₁, hf₁, hv₁, hres₁, hnd₁, hnv₁⟩ :=
                  ih _ _ _ _ _ _ hinner
                obtain ⟨b₂, hf₂, hv₂, hres₂, hnd₂, hnv₂⟩ :=
                  ih _ _ _ _ _ _ h
                have hnmem : nested ∉ visited := by
                  intro hmem
                  exact hnvis ((contains_true_iff visited nested).mpr hmem)
                refine ⟨(nested, nested_def) :: (b₁ ++ b₂), ?_, ?_, ?_, ?_, ?_⟩
                · rw [hf₂, hf₁]
                  simp [List.append_assoc]
                · rw [hv₂, hv₁]
                  simp [List.reverse_append, List.append_assoc]
                · intro b hb
                  rcases List.mem_cons.mp hb with rfl | hb'
                  · exact ⟨hres, resolve_custom_type_msg hct⟩
                  · rcases List.mem_append.mp hb' with h1 | h2
                    · exact hres₁ b h1
                    · exact hres₂ b h2
                · rw [List.map_cons, List.nodup_cons]
                  constructor
                  · intro hmem
                    rw [List.map_append, List.mem_append] at hmem
                    rcases hmem with h1 | h2
                    · exact (hnv₁ nested h1) (List.mem_cons_self _ _)
                    · refine (hnv₂ nested h2) ?_
                      rw [hv₁]
                      exact List.mem_append_right _ (List.mem_cons_self _ _)
                  · rw [List.map_append, List.nodup_append]
                    refine ⟨hnd₁, hnd₂, ?_⟩
                    intro x hx1 hx2
                    refine (hnv₂ x hx2) ?_
                    rw [hv₁]
                    exact List.mem_append_left _ (List.mem_reverse.mpr hx1)
                · intro n hn
                  rw [List.map_cons, List.mem_cons] at hn
                  rcases hn with rfl | hn'
                  · exact hnmem
                  · rw [List.map_append, List.mem_append] at hn'
                    rcases hn' with h1 | h2
                    · intro hmem
                      exact (hnv₁ n h1) (List.mem_cons_of_mem _ hmem)
                    · intro hmem
                      refine (hnv₂ n h2) ?_
                      rw [hv₁]
                      exact List.mem_append_right _ (List.mem_cons_of_mem _ hmem)

/-- Every error a `flatten_inner` run produces is fuel exhaustion or comes
from some failing `resolve` call. -/
theorem flatten_inner_error_origin (idx : Index) :
    ∀ (fuel : Nat) (pkg : String) (lines visited flat : List String) (e : SchemaError),
      flatten_inner idx fuel pkg lines visited flat = Except.error e →
      e = SchemaError.fuelOut ∨ ∃ n, resolve idx n = Except.error e := by
  intro fuel
  induction fuel with
  | zero =>
    intro pkg lines visited flat e h
    simp only [flatten_inner] at h
    have he : SchemaError.fuelOut = e := by simpa using h
    exact Or.inl he.symm
  | succ fuel ih =>
    intro pkg lines visited flat e h
    cases lines with
    | nil => simp [flatten_inner] at h
    | cons line rest =>
      simp only [flatten_inner] at h
      split at h
      · exact ih pkg rest visited flat e h
      · split at h
        · exact ih pkg rest visited flat e h
        · next typename nested hct =>
          split at h
          · exact ih pkg rest visited flat e h
          · next hnvis =>
            split at h
            · next e0 hres =>
              have he : e0 = e := by simpa using h
              subst he
              exact Or.inr ⟨nested, hres⟩
            · next nested_def hres =>
              split at h
              · next e0 hinner =>
                have he : e0 = e := by simpa using h
                subst he
                exact ih _ _ _ _ _ hinner
              · next visited1 flat1 hinner =>
                exact ih pkg rest visited1 flat1 e h

/-! ### Fuel accounting -/

theorem totalCost_filter_le (idx : Index) (p : String × Option String → Bool) :
    totalCost (idx.filter p) ≤ totalCost idx := by
  induction idx with
  | nil => simp [totalCost]
  | cons e es ih =>
    rw [List.filter_cons]
    by_cases hp : p e = true
    · rw [if_pos hp]
      simp only [totalCost, List.map_cons, List.sum_cons] at *
      omega
    · rw [if_neg hp]
      simp only [totalCost, List.map_cons, List.sum_cons] at *
      omega

theorem budget_le_totalCost (idx : Index) (visited : List String) :
    budget idx visited ≤ totalCost idx :=
  totalCost_filter_le idx _

theorem totalCost_cons (e : String × Option String) (l : Index) :
    totalCost (e :: l) = entryCost e + totalCost l := by
  simp [totalCost]

theorem filter_unvisited_cons (k : String) (w : Option String) (es : Index)
    (visited : List String) :
    (((k, w) :: es).filter fun x => !visited.contains x.1)
      = if visited.contains k = true
          then es.filter (fun x => !visited.contains x.1)
          else (k, w) :: es.filter (fun x => !visited.contains x.1) := by
  rw [List.filter_cons]
  cases hcv : visited.contains k with
  | true => simp [hcv]
  | false => simp [hcv]

theorem budget_anti (idx : Index) {visited visited' : List String}
    (hsub : ∀ x, x ∈ visited → x ∈ visited') :
    budget idx visited' ≤ budget idx visited := by
  unfold budget
  induction idx with
  | nil => simp [totalCost]
  | cons e es ih =>
    obtain ⟨k, w⟩ := e
    cases hcv : visited.contains k with
    | true =>
      have hcv' : visited'.contains k = true :=
        (contains_true_iff _ _).mpr (hsub _ ((contains_true_iff _ _).mp hcv))
      rw [filter_unvisited_cons, filter_unvisited_cons, if_pos hcv', if_pos hcv]
      exact ih
    | false =>
      have hn2 : ¬ (visited.contains k = true) := by rw [hcv]; simp
      cases hcv' : visited'.contains k with
      | true =>
        rw [filter_unvisited_cons, filter_unvisited_cons, if_pos hcv',
          if_neg hn2, totalCost_cons]
        exact le_trans ih (Nat.le_add_left _ _)
      | false =>
        have hn1 : ¬ (visited'.contains k = true) := by rw [hcv']; simp
        rw [filter_unvisited_cons, filter_unvisited_cons, if_neg hn1,
          if_neg hn2, totalCost_cons, totalCost_cons]
        exact Nat.add_le_add_left ih _

theorem budget_drop {idx : Index} {n : String} {v : Option String}
    (hl : idx.lookup n = some v) {visited : List String}
    (hn : visited.contains n = false) :
    budget idx (n :: visited) + entryCost (n, v) ≤ budget idx visited := by
  induction idx with
  | nil => simp [List.lookup] at hl
  | cons e es ih =>
    obtain ⟨k, w⟩ := e
    rw [List.lookup] at hl
    cases hbeq : n == k with
    | true =>
      rw [hbeq] at hl
      have hk : n = k := by simpa using hbeq
      have hw : w = v := by simpa using hl
      subst hk
      subst hw
      unfold budget
      have hc1 : ((n :: visited).contains n) = true :=
        (contains_true_iff _ _).mpr (List.mem_cons_self _ _)
      have hn2 : ¬ (visited.contains n = true) := by rw [hn]; simp
      rw [filter_unvisited_cons, filter_unvisited_cons, if_pos hc1,
        if_neg hn2, totalCost_cons]
      have hmono : budget es (n :: visited) ≤ budget es visited :=
        budget_anti es (fun x hx => List.mem_cons_of_mem _ hx)
      simp only [budget] at hmono
      omega
    | false =>
      rw [hbeq] at hl
      have hk : ¬ n = k := by simpa using hbeq
      unfold budget
      have hck : (n :: visited).contains k = visited.contains k := by
        cases hv : visited.contains k with
        | true =>
          exact (contains_true_iff _ _).mpr
            (List.mem_cons_of_mem _ ((contains_true_iff _ _).mp hv))
        | false =>
          refine (contains_false_iff _ _).mpr ?_
          intro hmem
          rcases List.mem_cons.mp hmem with h1 | h2
          · exact hk h1.symm
          · exact (contains_false_iff _ _).mp hv h2
      cases hkv : visited.contains k with
      | true =>
        have hkv' : (n :: visited).contains k = true := by rw [hck, hkv]
        rw [filter_unvisited_cons, filter_unvisited_cons, if_pos hkv',
          if_pos hkv]
        have h' := ih hl
        simp only [budget] at h'
        exact h'
      | false =>
        have hm1 : ¬ ((n :: visited).contains k = true) := by rw [hck, hkv]; simp
        have hm2 : ¬ (visited.contains k = true) := by rw [hkv]; simp
        rw [filter_unvisited_cons, filter_unvisited_cons, if_neg hm1,
          if_neg hm2, totalCost_cons, totalCost_cons]
        have h' := ih hl
        simp only [budget] at h'
        omega

/-- With at least `lines.length + 1 + budget idx visited` fuel the traversal
never runs out of fuel. -/
theorem flatten_inner_fuel (idx : Index) :
    ∀ (fuel : Nat) (pkg : String) (lines visited flat : List String),
      lines.length + 1 + budget idx visited ≤ fuel →
      flatten_inner idx fuel pkg lines visited flat ≠ Except.error SchemaError.fuelOut := by
  intro fuel
  induction fuel with
  | zero =>
    intro pkg lines visited flat hb
    exact absurd hb (by omega)
  | succ fuel ih =>
    intro pkg lines visited flat hb h
    cases lines with
    | nil => simp [flatten_inner] at h
    | cons line rest =>
      have hb' : rest.length + 1 + budget idx visited ≤ fuel := by
        simp only [List.length_cons] at hb
        omega
      simp only [flatten_inner] at h
      split at h
      · exact ih pkg rest visited flat hb' h
      · split at h
        · exact ih pkg rest visited flat hb' h
        · next typename nested hct =>
          split at h
          · exact ih pkg rest visited flat hb' h
          · next hnvis =>
            have hnc : visited.contains nested = false := by
              cases hcv : visited.contains nested with
              | true => exact absurd hcv hnvis
              | false => rfl
            split at h
            · next e0 hres =>
              have he : e0 = SchemaError.fuelOut := by simpa using h
              subst he
              exact resolve_no_fuelOut hres
            · next nested_def hres =>
              obtain ⟨t, hlook, hdef⟩ := resolve_ok_lookup hres
              have hcost : entryCost (nested, some t)
                  = (linesOf nested_def).length + 2 := by
                simp [entryCost, hdef]
              have hdrop := budget_drop hlook hnc
              rw [hcost] at hdrop
              have hbound : (linesOf nested_def).length + 1 +
                  budget idx (nested :: visited) ≤ fuel := by
                simp only [List.length_cons] at hb
                omega
              split at h
              · next e0 hinner =>
                have he : e0 = SchemaError.fuelOut := by simpa using h
                subst he
                exact ih _ _ _ _ hbound hinner
              · next visited1 flat1 hinner =>
                obtain ⟨b₁, hf₁, hv₁, hres₁, hnd₁, hnv₁⟩ :=
                  flatten_inner_ok_shape idx _ _ _ _ _ _ _ hinner
                have hmono : budget idx visited1 ≤ budget idx (nested :: visited) := by
                  refine budget_anti idx ?_
                  intro x hx
                  rw [hv₁]
                  exact List.mem_append_right _ hx
                have hbound2 : rest.length + 1 + budget idx visited1 ≤ fuel := by
                  simp only [List.length_cons] at hb
                  omega
                exact ih pkg rest visited1 flat1 hbound2 h

/-! ### `flatten`-level consequences -/

theorem flatten_no_fuelOut (idx : Index) (root : String) :
    flatten idx root ≠ Except.error SchemaError.fuelOut := by
  intro h
  unfold flatten at h
  split at h
  · next e0 hr =>
    have he : e0 = SchemaError.fuelOut := by simpa using h
    subst he
    exact resolve_no_fuelOut hr
  · next definition hr =>
    have hfuel : (linesOf definition).length + 1 + budget idx [root]
        ≤ fuelFor idx definition := by
      have := budget_le_totalCost idx [root]
      simp only [fuelFor]
      omega
    split at h
    · next e0 hi =>
      have he : e0 = SchemaError.fuelOut := by simpa using h
      subst he
      exact flatten_inner_fuel idx _ _ _ _ _ hfuel hi
    · next v' f' hi => simp at h

/-- A successful `flatten` output is the root definition followed by the
rendered blocks of the traversal, joined by blank lines. -/
theorem flatten_ok_shape {idx : Index} {root out : String}
    (h : flatten idx root = Except.ok out) :
    ∃ (rootDef : String) (blocks : List (String × String)),
      resolve idx root = Except.ok rootDef ∧
      out = joinS "\n\n" (rootDef :: blocks.map renderBlock) ∧
      (∀ b ∈ blocks, resolve idx b.1 = Except.ok b.2 ∧
        containsSub msgMark.data b.1.data = true) ∧
      (blocks.map Prod.fst).Nodup := by
  unfold flatten at h
  split at h
  · simp at h
  · next definition hr =>
    split at h
    · simp at h
    · next v' f' hi =>
      have hout : joinS "\n\n" f' = out := by simpa using h
      obtain ⟨blocks, hf, hv, hres, hnd, hnv⟩ :=
        flatten_inner_ok_shape idx _ _ _ _ _ _ _ hi
      refine ⟨definition, blocks, hr, ?_, hres, hnd⟩
      rw [← hout, hf]
      simp

theorem flatten_error_resolve {idx : Index} {root : String} {e : SchemaError}
    (h : flatten idx root = Except.error e) :
    ∃ n, resolve idx n = Except.error e := by
  have hnf : e ≠ SchemaError.fuelOut := by
    intro he
    subst he
    exact flatten_no_fuelOut idx root h
  unfold flatten at h
  split at h
  · next e0 hr =>
    have he : e0 = e := by simpa using h
    subst he
    exact ⟨root, hr⟩
  · next definition hr =>
    split at h
    · next e0 hi =>
      have he : e0 = e := by simpa using h
      subst he
      rcases flatten_inner_error_origin idx _ _ _ _ _ _ hi with hfo | ⟨n, hn⟩
      · exact absurd hfo hnf
      · exact ⟨n, hn⟩
    · next v' f' hi => simp at h

/-- Refinement of `flatten_inner_error_origin`: an error run is fuel
exhaustion, or all blocks the traversal emitted before the failure resolved
successfully and the error is the one of the failing `resolve` call — the
first failing one, since the traversal stops there. -/
theorem flatten_inner_error_first (idx : Index) :
    ∀ (fuel : Nat) (pkg : String) (lines visited flat : List String) (e : SchemaError),
      flatten_inner idx fuel pkg lines visited flat = Except.error e →
      e = SchemaError.fuelOut ∨
      ∃ (blocks : List (String × String)) (n : String),
        (∀ b ∈ blocks, resolve idx b.1 = Except.ok b.2) ∧
        resolve idx n = Except.error e := by
  intro fuel
  induction fuel with
  | zero =>
    intro pkg lines visited flat e h
    simp only [flatten_inner] at h
    have he : SchemaError.fuelOut = e := by simpa using h
    exact Or.inl he.symm
  | succ fuel ih =>
    intro pkg lines visited flat e h
    cases lines with
    | nil => simp [flatten_inner] at h
    | cons line rest =>
      simp only [flatten_inner] at h
      split at h
      · exact ih pkg rest visited flat e h
      · split at h
        · exact ih pkg rest visited flat e h
        · next typename nested hct =>
          split at h
          · exact ih pkg rest visited flat e h
          · next hnvis =>
            split at h
            · next e0 hres =>
              have he : e0 = e := by simpa using h
              subst he
              exact Or.inr ⟨[], nested, by simp, hres⟩
            · next nested_def hres =>
              split at h
              · next e0 hinner =>
                have he : e0 = e := by simpa using h
                subst he
                rcases ih _ _ _ _ _ hinner with hfo | ⟨blocks1, n, hb1, hn⟩
                · exact Or.inl hfo
                · refine Or.inr ⟨(nested, nested_def) :: blocks1, n, ?_, hn⟩
                  intro b hb
                  rcases List.mem_cons.mp hb with rfl | hb'
                  · exact hres
                  · exact hb1 b hb'
              · next visited1 flat1 hinner =>
                rcases ih pkg rest visited1 flat1 e h with hfo | ⟨blocks2, n, hb2, hn⟩
                · exact Or.inl hfo
                · obtain ⟨b₁, hf₁, hv₁, hres₁, hnd₁, hnv₁⟩ :=
                    flatten_inner_ok_shape idx _ _ _ _ _ _ _ hinner
                  refine Or.inr ⟨(nested, nested_def) :: (b₁ ++ blocks2), n, ?_, hn⟩
                  intro b hb
                  rcases List.mem_cons.mp hb with rfl | hb'
                  · exact hres
                  · rcases List.mem_append.mp hb' with h1 | h2
                    · exact (hres₁ b h1).1
                    · exact hb2 b h2

/-- A failed `flatten` either failed on the root itself, or resolved the
root and every block emitted before the failure, and returns the error of
the failing `resolve` call. -/
theorem flatten_error_first {idx : Index} {root : String} {e : SchemaError}
    (h : flatten idx root = Except.error e) :
    resolve idx root = Except.error e ∨
    ∃ (rootDef : String) (blocks : List (String × String)) (n : String),
      resolve idx root = Except.ok rootDef ∧
      (∀ b ∈ blocks, resolve idx b.1 = Except.ok b.2) ∧
      resolve idx n = Except.error e := by
  have hnf : e ≠ SchemaError.fuelOut := by
    intro he
    subst he
    exact flatten_no_fuelOut idx root h
  unfold flatten at h
  split at h
  · next e0 hr =>
    have he : e0 = e := by simpa using h
    subst he
    exact Or.inl hr
  · next definition hr =>
    split at h
    · next e0 hi =>
      have he : e0 = e := by simpa using h
      subst he
      rcases flatten_inner_error_first idx _ _ _ _ _ _ hi with hfo | ⟨blocks, n, hb, hn⟩
      · exact absurd hfo hnf
      · exact Or.inr ⟨definition, blocks, n, hr, hb, hn⟩
    · next v' f' hi => simp at h

/-! ### Claims -/

/-- C1: for the end-to-end scenario index (`tf2_msgs/TFMessage` referencing
`TransformStamped`, which references `Header`/`Time` and `Transform`, which
references the numeric leaves `Vector3` and `Quaternion`),
`flatten "tf2_msgs/msg/TFMessage"` returns the root text followed by blocks
for TransformStamped, Header, Time, Transform, Vector3, Quaternion in
exactly that depth-first discovery order, each subsequent block preceded by
the 80-`=` separator line and its `MSG:` header. -/
theorem claim_tf_end_to_end :
    flatten tfIndex "tf2_msgs/msg/TFMessage" = Except.ok tfExpected := by
  rfl

/-- C2: for every index and root on which `flatten` succeeds, the returned
string is the trimmed root schema text rendered bare, then one block per
subsequently discovered type consisting of the separator line (exactly 80
`=`), a `MSG: ` line carrying the fully-qualified name with its `/msg/`
segment collapsed to `/`, and the trimmed schema text of a successful
`resolve`; consecutive blocks are joined by exactly one blank line and
nothing follows the last block. -/
theorem claim_flatten_output_format (idx : Index) (root out : String)
    (h : flatten idx root = Except.ok out) :
    ∃ (rootDef : String) (blocks : List (String × String)),
      resolve idx root = Except.ok rootDef ∧
      (∀ b ∈ blocks, resolve idx b.1 = Except.ok b.2) ∧
      out = joinS "\n\n"
        (rootDef :: blocks.map (fun b =>
          sepLine ++ "\nMSG: " ++ displayName b.1 ++ "\n" ++ trimS b.2)) ∧
      sepLine.data = List.replicate 80 '=' := by
  obtain ⟨rootDef, blocks, hr, hout, hres, hnd⟩ := flatten_ok_shape h
  refine ⟨rootDef, blocks, hr, fun b hb => (hres b hb).1, ?_, by decide⟩
  rw [hout]
  rfl

theorem claim_flatten_output_format_witness :
    ∃ (rootDef : String) (blocks : List (String × String)),
      resolve tfIndex "tf2_msgs/msg/TFMessage" = Except.ok rootDef ∧
      (∀ b ∈ blocks, resolve tfIndex b.1 = Except.ok b.2) ∧
      tfExpected = joinS "\n\n"
        (rootDef :: blocks.map (fun b =>
          sepLine ++ "\nMSG: " ++ displayName b.1 ++ "\n" ++ trimS b.2)) ∧
      sepLine.data = List.replicate 80 '=' :=
  claim_flatten_output_format tfIndex "tf2_msgs/msg/TFMessage" tfExpected (by rfl)

/-- C3: `flatten` terminates for every index — the fuel-exhaustion error of
the embedded recursion is unreachable — even on cyclic reference graphs, and
every distinct custom type in the closure is emitted exactly once (the block
names are pairwise distinct); concretely, the `A` ↔ `B` cycle terminates
with each of `A`, `B` emitted once, and a root with two `std_msgs/Header`
fields emits the `Header` block once, at its first discovery position. -/
theorem claim_flatten_terminates_each_once :
    (∀ (idx : Index) (root : String),
      flatten idx root ≠ Except.error SchemaError.fuelOut) ∧
    (∀ (idx : Index) (root out : String), flatten idx root = Except.ok out →
      ∃ (rootDef : String) (blocks : List (String × String)),
        resolve idx root = Except.ok rootDef ∧
        out = joinS "\n\n" (rootDef :: blocks.map renderBlock) ∧
        (blocks.map Prod.fst).Nodup) ∧
    flatten cycIdx "p/msg/A"
      = Except.ok ("B b" ++ "\n\n" ++ sepLine ++ "\nMSG: p/B\nA a") ∧
    flatten dupIdx "demo/msg/Root"
      = Except.ok ("std_msgs/Header a\nstd_msgs/Header b" ++ "\n\n" ++
          sepLine ++ "\nMSG: std_msgs/Header\nuint32 seq") := by
  refine ⟨flatten_no_fuelOut, ?_, by rfl, by rfl⟩
  intro idx root out h
  obtain ⟨rootDef, blocks, hr, hout, hres, hnd⟩ := flatten_ok_shape h
  exact ⟨rootDef, blocks, hr, hout, hnd⟩

theorem claim_flatten_terminates_each_once_witness :
    ∃ (rootDef : String) (blocks : List (String × String)),
      resolve cycIdx "p/msg/A" = Except.ok rootDef ∧
      ("B b" ++ "\n\n" ++ sepLine ++ "\nMSG: p/B\nA a")
        = joinS "\n\n" (rootDef :: blocks.map renderBlock) ∧
      (blocks.map Prod.fst).Nodup :=
  claim_flatten_terminates_each_once.2.1 cycIdx "p/msg/A"
    ("B b" ++ "\n\n" ++ sepLine ++ "\nMSG: p/B\nA a") (by rfl)

/-- C4 counterexample: the claim states that the raw token `string<=` (the
bounded marker with no digits) classifies as non-Builtin; on the code it
classifies as Builtin, because `rest[2..]` is empty and the all-digits check
is vacuously true on an empty remainder. -/
theorem claim_bounded_marker_counterexample :
    ¬ (is_builtin_type "string<=" = false) := by
  decide

/-- C4 amended: `string<=40` and `wstring<=1` classify as Builtin, and so
does the digit-less marker `string<=`, whose empty remainder passes the
vacuous all-digits check. -/
theorem claim_bounded_marker_amended :
    is_builtin_type "string<=" = true ∧
    is_builtin_type "string<=40" = true ∧
    is_builtin_type "wstring<=1" = true := by
  decide

/-- C5: for every non-builtin token and every current package, qualification
follows the code's rules: a suffix-stripped base containing `/msg/` is used
unchanged; a base containing `/` that splits into exactly two segments
`pkg/Type` becomes `pkg/msg/Type`; a base containing `/` with any other
segment count yields no reference at all, and such a field is silently
skipped by the traversal rather than failing it; a base without `/` is
qualified with the current package.  Concretely, `Transform` inside
`geometry_msgs` and the two-segment `geometry_msgs/Transform` both yield
`geometry_msgs/msg/Transform`, and `a/b/c` yields no reference. -/
theorem claim_custom_type_qualification :
    (∀ raw pkg : String, is_builtin_type raw = false →
      ((strip_array_suffix raw).data.contains '/' = true →
        containsSub msgMark.data (strip_array_suffix raw).data = true →
        resolve_custom_type raw pkg = some (strip_array_suffix raw)) ∧
      (∀ p t : String,
        (strip_array_suffix raw).data.contains '/' = true →
        containsSub msgMark.data (strip_array_suffix raw).data = false →
        (splitOnChar '/' (strip_array_suffix raw).data).map String.mk = [p, t] →
        resolve_custom_type raw pkg = some (p ++ "/msg/" ++ t)) ∧
      ((strip_array_suffix raw).data.contains '/' = true →
        containsSub msgMark.data (strip_array_suffix raw).data = false →
        ((splitOnChar '/' (strip_array_suffix raw).data).map String.mk).length ≠ 2 →
        resolve_custom_type raw pkg = none) ∧
      ((strip_array_suffix raw).data.contains '/' = false →
        resolve_custom_type raw pkg
          = some (pkg ++ "/msg/" ++ strip_array_suffix raw))) ∧
    (∀ (idx : Index) (fuel : Nat) (pkg line : String)
      (rest visited flat : List String) (tok : String),
      fieldTypeToken line = some tok →
      resolve_custom_type tok pkg = none →
      flatten_inner idx (fuel + 1) pkg (line :: rest) visited flat
        = flatten_inner idx fuel pkg rest visited flat) ∧
    resolve_custom_type "Transform" "geometry_msgs"
      = some "geometry_msgs/msg/Transform" ∧
    resolve_custom_type "geometry_msgs/Transform" "nav_msgs"
      = some "geometry_msgs/msg/Transform" ∧
    resolve_custom_type "a/b/c" "rcl_interfaces" = none := by
  refine ⟨?_, ?_, by rfl, by rfl, by rfl⟩
  · intro raw pkg h
    have hb : ¬ (is_builtin_type raw = true) := by rw [h]; simp
    refine ⟨?_, ?_, ?_, ?_⟩
    · intro hsl hmsg
      simp only [resolve_custom_type]
      rw [if_neg hb, if_pos hsl, if_pos hmsg]
    · intro p t hsl hmsg hsp
      simp only [resolve_custom_type]
      rw [if_neg hb, if_pos hsl, if_neg (by rw [hmsg]; simp), hsp]
    · intro hsl hmsg hlen
      simp only [resolve_custom_type]
      rw [if_neg hb, if_pos hsl, if_neg (by rw [hmsg]; simp)]
      rcases hsp : (splitOnChar '/' (strip_array_suffix raw).data).map String.mk with
        _ | ⟨a, _ | ⟨b, _ | ⟨c, r⟩⟩⟩
      · rfl
      · rfl
      · rw [hsp] at hlen
        simp at hlen
      · rfl
    · intro hsl
      simp only [resolve_custom_type]
      rw [if_neg hb, if_neg (by rw [hsl]; simp)]
  · intro idx fuel pkg line rest visited flat tok htok hnone
    simp only [flatten_inner, htok, hnone]

theorem claim_custom_type_qualification_witness :
    resolve_custom_type "a/b/c" "rcl_interfaces" = none :=
  ((claim_custom_type_qualification.1 "a/b/c" "rcl_interfaces"
    (by decide)).2.2.1) (by decide) (by decide) (by decide)

/-- C6: `strip_array_suffix` strips `[]` from `int32[]`, `[<=8]` (but not
the bounded-string qualifier) from `string<=256[<=8]`, `[<=1]` from
`FloatingPointRange[<=1]`; and any token ending in a bracket whose interior
fails the validity test (after trimming: neither empty, nor all ASCII
digits, nor `<=` followed by ASCII digits) is returned untouched, with no
further stripping. -/
theorem claim_strip_suffix_examples :
    strip_array_suffix "int32[]" = "int32" ∧
    strip_array_suffix "string<=256[<=8]" = "string<=256" ∧
    strip_array_suffix "FloatingPointRange[<=1]" = "FloatingPointRange" ∧
    (∀ (s : String) (lb : Nat),
      rfindBracket s.data = some lb →
      s.data.getLast? = some ']' →
      lb ≠ 0 →
      validArrayInner ((s.data.drop (lb + 1)).dropLast) = false →
      strip_array_suffix s = s) := by
  refine ⟨by rfl, by rfl, by rfl, ?_⟩
  intro s lb hf hl hlb hv
  obtain ⟨c, cs, hcs⟩ : ∃ c cs, s.data = c :: cs := by
    cases hd : s.data with
    | nil => rw [hd] at hf; simp [rfindBracket] at hf
    | cons c cs => exact ⟨c, cs, rfl⟩
  rw [hcs] at hf hl hv
  unfold strip_array_suffix stripArraySuffixL
  rw [hcs, List.length_cons]
  simp only [stripGo, hf]
  rw [if_pos ⟨hl, hlb⟩, if_neg (by rw [hv]; simp), ← hcs]

/-- C6 witness: the malformed bracket interior `abc` in `Foo[abc]` fails the
validity test, so the token is returned untouched. -/
theorem claim_strip_suffix_examples_witness :
    strip_array_suffix "Foo[abc]" = "Foo[abc]" :=
  claim_strip_suffix_examples.2.2.2 "Foo[abc]" 3
    (by decide) (by decide) (by decide) (by decide)

/-- C7: every token whose suffix-stripped base matches one of the fixed
builtin primitive names (`bool`, `byte`, `char`, the sized integers,
`float32`, `float64`, `string`, `wstring`) classifies as Builtin, with or
without trailing valid array suffixes. -/
theorem claim_builtin_primitive_names :
    (∀ raw : String, builtinNames.contains (strip_array_suffix raw) = true →
      is_builtin_type raw = true) ∧
    (∀ n ∈ builtinNames, is_builtin_type n = true) ∧
    is_builtin_type "int32[]" = true ∧
    is_builtin_type "bool[5]" = true := by
  refine ⟨?_, by decide, by decide, by decide⟩
  intro raw h
  simp only [is_builtin_type]
  rw [if_pos h]

theorem claim_builtin_primitive_names_witness :
    is_builtin_type "float64[]" = true :=
  claim_builtin_primitive_names.1 "float64[]" (by decide)

/-- C8: `resolve` fails exactly when the name is absent from the index
(`notFound`, naming the missing fully-qualified type) or the backing source
cannot be read (`ioError`), and succeeds otherwise; a failed `flatten`
propagates the error of the first failing `resolve` call anywhere in the
closure — every `resolve` the traversal completed before it succeeded, and
at the failing reference the error is returned immediately without
examining any later field — and returns no partial output; concretely,
`resolve "nonexistent/msg/Foo"` fails naming `nonexistent/msg/Foo`. -/
theorem claim_resolve_flatten_errors :
    (∀ (idx : Index) (name : String),
      (idx.lookup name = none →
        resolve idx name = Except.error (SchemaError.notFound name)) ∧
      (idx.lookup name = some none →
        resolve idx name = Except.error SchemaError.ioError) ∧
      (∀ t, idx.lookup name = some (some t) →
        resolve idx name = Except.ok (trimS t)) ∧
      (∀ e, resolve idx name = Except.error e →
        (e = SchemaError.notFound name ∧ idx.lookup name = none) ∨
        (e = SchemaError.ioError ∧ idx.lookup name = some none))) ∧
    (∀ (idx : Index) (root : String) (e : SchemaError),
      flatten idx root = Except.error e →
      (resolve idx root = Except.error e ∨
        ∃ (rootDef : String) (blocks : List (String × String)) (n : String),
          resolve idx root = Except.ok rootDef ∧
          (∀ b ∈ blocks, resolve idx b.1 = Except.ok b.2) ∧
          resolve idx n = Except.error e) ∧
      ∀ out, flatten idx root ≠ Except.ok out) ∧
    (∀ (idx : Index) (fuel : Nat) (pkg line : String)
        (rest visited flat : List String) (tok n : String) (e : SchemaError),
      fieldTypeToken line = some tok →
      resolve_custom_type tok pkg = some n →
      visited.contains n = false →
      resolve idx n = Except.error e →
      flatten_inner idx (fuel + 1) pkg (line :: rest) visited flat
        = Except.error e) ∧
    resolve [] "nonexistent/msg/Foo"
      = Except.error (SchemaError.notFound "nonexistent/msg/Foo") := by
  refine ⟨?_, ?_, ?_, by rfl⟩
  · intro idx name
    refine ⟨?_, ?_, ?_, ?_⟩
    · intro hl
      unfold resolve
      rw [hl]
    · intro hl
      unfold resolve
      rw [hl]
    · intro t hl
      unfold resolve
      rw [hl]
    · intro e he
      unfold resolve at he
      cases hl : idx.lookup name with
      | none =>
        rw [hl] at he
        have h1 : SchemaError.notFound name = e := by simpa using he
        exact Or.inl ⟨h1.symm, rfl⟩
      | some o =>
        cases o with
        | none =>
          rw [hl] at he
          have h1 : SchemaError.ioError = e := by simpa using he
          exact Or.inr ⟨h1.symm, rfl⟩
        | some t =>
          rw [hl] at he
          simp at he
  · intro idx root e h
    refine ⟨flatten_error_first h, ?_⟩
    intro out hout
    rw [h] at hout
    simp at hout
  · intro idx fuel pkg line rest visited flat tok n e htok hct hnc hres
    simp only [flatten_inner, htok, hct]
    rw [if_neg (by rw [hnc]; simp), hres]

/-- C8 witness: an entry whose source is unreadable yields `ioError`, and a
traversal meeting an unresolvable first reference returns that `resolve`
error immediately. -/
theorem claim_resolve_flatten_errors_witness :
    resolve [("a/msg/Broken", none)] "a/msg/Broken"
      = Except.error SchemaError.ioError ∧
    flatten_inner [] 1 "demo" ["Missing x"] [] []
      = Except.error (SchemaError.notFound "demo/msg/Missing") :=
  ⟨(claim_resolve_flatten_errors.1 [("a/msg/Broken", none)] "a/msg/Broken").2.1
     (by rfl),
   claim_resolve_flatten_errors.2.2.1 [] 0 "demo" "Missing x" [] [] []
     "Missing" "demo/msg/Missing" (SchemaError.notFound "demo/msg/Missing")
     (by rfl) (by rfl) (by rfl) (by rfl)⟩

/-- C9: `strip_array_suffix` always returns an initial segment of its input,
non-empty whenever the input is non-empty: a bracket at position 0 is never
stripped, so tokens that are nothing but an array suffix, such as `[3]` and
`[]`, are returned unchanged. -/
theorem claim_strip_suffix_initial_segment :
    (∀ s : String,
      (∃ t, stripArraySuffixL s.data ++ t = s.data) ∧
      (s.data ≠ [] → stripArraySuffixL s.data ≠ [])) ∧
    strip_array_suffix "[3]" = "[3]" ∧
    strip_array_suffix "[]" = "[]" := by
  refine ⟨?_, by rfl, by rfl⟩
  intro s
  exact ⟨stripGo_append _ _, stripGo_ne_nil _ _⟩

theorem claim_strip_suffix_initial_segment_witness :
    (∃ t, stripArraySuffixL "int32[]".data ++ t = "int32[]".data) ∧
    stripArraySuffixL "int32[]".data ≠ [] :=
  ⟨(claim_strip_suffix_initial_segment.1 "int32[]").1,
   (claim_strip_suffix_initial_segment.1 "int32[]").2 (by decide)⟩

/-- C10: every fully-qualified name produced by `resolve_custom_type`
contains the substring `/msg/`; consequently every type name other than the
root that a successful `flatten` resolved and rendered into a block contains
`/msg/`, so an index key lacking `/msg/` is never reachable from a field
reference. -/
theorem claim_msg_segment_invariant :
    (∀ raw pkg n : String, resolve_custom_type raw pkg = some n →
      containsSub msgMark.data n.data = true) ∧
    (∀ (idx : Index) (root out : String), flatten idx root = Except.ok out →
      ∃ (rootDef : String) (blocks : List (String × String)),
        resolve idx root = Except.ok rootDef ∧
        out = joinS "\n\n" (rootDef :: blocks.map renderBlock) ∧
        ∀ b ∈ blocks, resolve idx b.1 = Except.ok b.2 ∧
          containsSub msgMark.data b.1.data = true) := by
  refine ⟨fun raw pkg n h => resolve_custom_type_msg h, ?_⟩
  intro idx root out h
  obtain ⟨rootDef, blocks, hr, hout, hres, hnd⟩ := flatten_ok_shape h
  exact ⟨rootDef, blocks, hr, hout, hres⟩

theorem claim_msg_segment_invariant_witness :
    containsSub msgMark.data ("geometry_msgs/msg/Transform" : String).data = true :=
  claim_msg_segment_invariant.1 "Transform" "geometry_msgs"
    "geometry_msgs/msg/Transform" (by rfl)

end RosSchema
